import Mathlib

/-!
Shallow embedding of the GoSessionEngine repository for specification
verification.  Each definition is translated from a named Go function of the
source tree; the theorems at the end of the file settle the frozen claims
C1.C10 against these definitions.

Conventions:
  - Go machine integers (int64, int) are modelled as Lean Int; none of the
    verified claims depends on 64-bit overflow.
  - Go maps (map[string]T) are modelled as association lists built exclusively
    through insert-with-replace, so their keys are duplicate-free by
    construction.  Go ranges over a map in randomised order; where that order
    is observable - the validator's schema flattening, whose dot-paths can
    collide - the admissible traversal orders are modelled explicitly by the
    JReorder relation and the extractsTo semantics below.
  - Wall-clock instants are passed explicitly as an integer parameter (seconds
    or nanoseconds, as noted at each definition).
-/

/-! ### Generic association-list operations (Go map[string]V) -/

/-- Lookup in an association list (Go map read `m[k]`). -/
def alookup {α : Type} : List (String × α) → String → Option α
  | [], _ => none
  | (k', v) :: t, k => if k' = k then some v else alookup t k

/-- Insert-with-replace (Go map write `m[k] = v`). -/
def insertKV {α : Type} : List (String × α) → String → α → List (String × α)
  | [], k, v => [(k, v)]
  | (k', v') :: t, k, v => if k' = k then (k, v) :: t else (k', v') :: insertKV t k v

/-- Keys of an association list are pairwise distinct (Go maps satisfy this by
construction). -/
def nodupKeys {α : Type} (l : List (String × α)) : Prop := (l.map Prod.fst).Nodup

theorem mem_keys_insertKV {α : Type} (l : List (String × α)) (k v) (x : String) :
    x ∈ (insertKV l k v).map Prod.fst ↔ x ∈ l.map Prod.fst ∨ x = k := by
  induction l with
  | nil => simp [insertKV]
  | cons h t ih =>
    obtain ⟨k', v'⟩ := h
    by_cases hk : k' = k
    · subst hk; simp [insertKV]; tauto
    · simp only [insertKV, if_neg hk, List.map_cons, List.mem_cons, ih]; tauto

theorem nodupKeys_insertKV {α : Type} (l : List (String × α)) (k v)
    (h : nodupKeys l) : nodupKeys (insertKV l k v) := by
  induction l with
  | nil => simp [nodupKeys, insertKV]
  | cons hd t ih =>
    obtain ⟨k', v'⟩ := hd
    simp only [nodupKeys, List.map_cons, List.nodup_cons] at h
    by_cases hk : k' = k
    · subst hk
      simpa [nodupKeys, insertKV] using h
    · have ht := ih h.2
      simp only [nodupKeys, insertKV, if_neg hk, List.map_cons, List.nodup_cons]
      refine ⟨?_, ht⟩
      rw [mem_keys_insertKV]
      rintro (hm | hm)
      · exact h.1 hm
      · exact hk hm

theorem alookup_insertKV_self {α : Type} (l : List (String × α)) (k v) :
    alookup (insertKV l k v) k = some v := by
  induction l with
  | nil => simp [insertKV, alookup]
  | cons hd t ih =>
    obtain ⟨k', v'⟩ := hd
    by_cases hk : k' = k
    · simp [insertKV, hk, alookup]
    · simp [insertKV, hk, alookup, ih]

theorem alookup_insertKV_ne {α : Type} (l : List (String × α)) (k v k')
    (hne : k ≠ k') : alookup (insertKV l k v) k' = alookup l k' := by
  induction l with
  | nil => simp [insertKV, alookup, hne]
  | cons hd t ih =>
    obtain ⟨k0, v0⟩ := hd
    by_cases hk : k0 = k
    · subst hk; simp [insertKV, alookup, hne]
    · by_cases hk' : k0 = k'
      · subst hk'; simp [insertKV, alookup, hk]
      · simp [insertKV, hk, alookup, hk', ih]

theorem length_insertKV_mem {α : Type} (l : List (String × α)) (k v)
    (h : alookup l k ≠ none) : (insertKV l k v).length = l.length := by
  induction l with
  | nil => simp [alookup] at h
  | cons hd t ih =>
    obtain ⟨k', v'⟩ := hd
    by_cases hk : k' = k
    · simp [insertKV, hk]
    · simp only [alookup, if_neg hk] at h
      simp [insertKV, hk, ih h]

theorem alookup_eq_some_of_mem {α : Type} (l : List (String × α)) (k : String)
    (v : α) (hm : (k, v) ∈ l) : ∃ w, alookup l k = some w := by
  induction l with
  | nil => simp at hm
  | cons hd t ih =>
    obtain ⟨k', v'⟩ := hd
    by_cases hk : k' = k
    · exact ⟨v', by simp [alookup, hk]⟩
    · rcases List.mem_cons.mp hm with h | h
      · cases h; exact absurd rfl hk
      · simpa [alookup, hk] using ih h

theorem alookup_of_mem_nodup {α : Type} (l : List (String × α)) (k : String)
    (v : α) (hnd : nodupKeys l) (hm : (k, v) ∈ l) : alookup l k = some v := by
  induction l with
  | nil => simp at hm
  | cons hd t ih =>
    obtain ⟨k', v'⟩ := hd
    simp only [nodupKeys, List.map_cons, List.nodup_cons] at hnd
    rcases List.mem_cons.mp hm with h | h
    · cases h; simp [alookup]
    · have hk : k' ≠ k := by
        intro hkk
        subst hkk
        exact hnd.1 (List.mem_map_of_mem Prod.fst h)
      simp [alookup, hk, ih hnd.2 h]

theorem mem_of_alookup_eq_some {α : Type} (l : List (String × α)) (k : String)
    (v : α) (h : alookup l k = some v) : (k, v) ∈ l := by
  induction l with
  | nil => simp [alookup] at h
  | cons hd t ih =>
    obtain ⟨k', v'⟩ := hd
    by_cases hk : k' = k
    · subst hk
      simp only [alookup, if_pos rfl] at h
      cases h
      exact List.mem_cons_self _ _
    · simp only [alookup, if_neg hk] at h
      exact List.mem_cons_of_mem _ (ih h)

/-! ### Byte-order string comparison (Go `<` on strings)

Go compares strings byte-wise; on UTF-8 encoded text this order coincides with
the lexicographic order on Unicode code points used here. -/

/-- Lexicographic strict order on char lists by code point. -/
def charListLt : List Char → List Char → Bool
  | [], [] => false
  | [], _ :: _ => true
  | _ :: _, [] => false
  | a :: as, b :: bs =>
    if a.toNat < b.toNat then true
    else if b.toNat < a.toNat then false
    else charListLt as bs

/-- Go string comparison s < t. -/
def strLt (a b : String) : Bool := charListLt a.data b.data

theorem charEq_of_toNat_eq (x y : Char) (h : x.toNat = y.toNat) : x = y := by
  apply Char.ext
  apply UInt32.ext
  simpa [Char.toNat, UInt32.toNat] using h

theorem charListLt_conn (a b : List Char) (hab : charListLt a b = false)
    (hba : charListLt b a = false) : a = b := by
  induction a generalizing b with
  | nil => cases b with
    | nil => rfl
    | cons y ys => simp [charListLt] at hab
  | cons x xs ih =>
    cases b with
    | nil => simp [charListLt] at hba
    | cons y ys =>
      simp only [charListLt] at hab hba
      by_cases h1 : x.toNat < y.toNat
      · simp [h1] at hab
      · by_cases h2 : y.toNat < x.toNat
        · simp [h2] at hba
        · have hxy : x = y := charEq_of_toNat_eq x y (by omega)
          simp only [h1, if_false, h2] at hab hba
          rw [hxy, ih ys hab hba]

theorem charListLt_trans (a b c : List Char) (hab : charListLt a b = true)
    (hbc : charListLt b c = true) : charListLt a c = true := by
  induction a generalizing b c with
  | nil =>
    cases c with
    | nil =>
      cases b with
      | nil => simpa using hab
      | cons y ys => simp [charListLt] at hbc
    | cons z zs => simp [charListLt]
  | cons x xs ih =>
    cases b with
    | nil => simp [charListLt] at hab
    | cons y ys =>
      cases c with
      | nil => simp [charListLt] at hbc
      | cons z zs =>
        simp only [charListLt] at hab hbc ⊢
        by_cases h1 : x.toNat < y.toNat
        · by_cases h2 : y.toNat < z.toNat
          · simp [Nat.lt_trans h1 h2]
          · by_cases h3 : z.toNat < y.toNat
            · simp [h2, h3] at hbc
            · have hxz : x.toNat < z.toNat := by omega
              simp [hxz]
        · by_cases h1' : y.toNat < x.toNat
          · simp [h1, h1'] at hab
          · by_cases h2 : y.toNat < z.toNat
            · have hxz : x.toNat < z.toNat := by omega
              simp [hxz]
            · by_cases h3 : z.toNat < y.toNat
              · simp [h2, h3] at hbc
              · have hxz : ¬ x.toNat < z.toNat := by omega
                have hzx : ¬ z.toNat < x.toNat := by omega
                simp only [hxz, if_false, hzx]
                exact ih ys zs (by simpa [h1, h1'] using hab) (by simpa [h2, h3] using hbc)

theorem strLt_conn (a b : String) (hab : strLt a b = false)
    (hba : strLt b a = false) : a = b := by
  cases a with
  | mk la =>
    cases b with
    | mk lb =>
      have := charListLt_conn la lb hab hba
      simp [this]

theorem strLt_trans (a b c : String) (hab : strLt a b = true)
    (hbc : strLt b c = true) : strLt a c = true :=
  charListLt_trans a.data b.data c.data hab hbc

/-! ### JSON values (Go `interface{}` holding the result of json.Unmarshal)

Go's json.Unmarshal into interface-typed storage produces nested
map[string]interface{} / []interface{} / string / float64 / bool / nil values.
Numbers are kept here in exact unnormalised scientific form
(mantissa, exp10) meaning mantissa * 10 ^ exp10; every numeric literal that a
float64 represents exactly (in particular every integer exp claim and every
payload in the claims) is represented exactly. -/

mutual
inductive Json where
  | str (s : String)
  | num (mantissa : Int) (exp10 : Int)
  | jbool (b : Bool)
  | null
  | arr (xs : JArr)
  | obj (fields : JObj)

inductive JArr where
  | nil
  | cons (hd : Json) (tl : JArr)

inductive JObj where
  | nil
  | cons (k : String) (v : Json) (tl : JObj)
end

/-- Map write into a decoded JSON object (Go map assignment: a duplicate key in
the source text overwrites the earlier value). -/
def JObj.insert : JObj → String → Json → JObj
  | .nil, k, v => .cons k v .nil
  | .cons k' v' t, k, v => if k' = k then .cons k v t else .cons k' v' (JObj.insert t k v)

/-- Map read from a decoded JSON object (Go claims["exp"]). -/
def JObj.lookup : JObj → String → Option Json
  | .nil, _ => none
  | .cons k' v t, k => if k' = k then some v else JObj.lookup t k

/-- True exactly for the float64 case of a Go type switch on a decoded value. -/
def Json.isNum : Json → Bool
  | .num _ _ => true
  | _ => false

/-! ### JSON text parser (Go encoding/json syntax) -/

/-- Whitespace skipped by the Go JSON scanner: space, tab, newline, return. -/
def skipWs : List Char → List Char
  | [] => []
  | c :: t => if c = ' ' ∨ c = '\t' ∨ c = '\n' ∨ c = '\r' then skipWs t else c :: t

def digitVal (c : Char) : Option Nat :=
  if 48 ≤ c.toNat ∧ c.toNat ≤ 57 then some (c.toNat - 48) else none

def takeDigits : List Char → List Nat × List Char
  | [] => ([], [])
  | c :: t =>
    match digitVal c with
    | some d => ((d :: (takeDigits t).1), (takeDigits t).2)
    | none => ([], c :: t)

def digitsToNat (ds : List Nat) : Nat := ds.foldl (fun a d => a * 10 + d) 0

/-- Fractional part ".digits" of a JSON number, if present. -/
def parseFrac : List Char → Option (List Nat × List Char)
  | '.' :: t =>
    match takeDigits t with
    | ([], _) => none
    | (ds, r) => some (ds, r)
  | cs => some ([], cs)

/-- Exponent part "[eE][+-]?digits" of a JSON number, if present. -/
def parseExp : List Char → Option (Int × List Char)
  | [] => some (0, [])
  | c :: t =>
    if c = 'e' ∨ c = 'E' then
      match t with
      | '+' :: t1 =>
        (match takeDigits t1 with
         | ([], _) => none
         | (ds, r) => some ((digitsToNat ds : Int), r))
      | '-' :: t1 =>
        (match takeDigits t1 with
         | ([], _) => none
         | (ds, r) => some (-(digitsToNat ds : Int), r))
      | _ =>
        (match takeDigits t with
         | ([], _) => none
         | (ds, r) => some ((digitsToNat ds : Int), r))
    else some (0, c :: t)

/-- JSON number grammar of the Go scanner: -?(0|[1-9][0-9]*)(.[0-9]+)?([eE][+-]?[0-9]+)?.
Returns (mantissa, exp10) and the remaining input. -/
def parseNumber (cs : List Char) : Option ((Int × Int) × List Char) :=
  let signSplit : Bool × List Char :=
    match cs with
    | '-' :: t => (true, t)
    | _ => (false, cs)
  match takeDigits signSplit.2 with
  | ([], _) => none
  | (d :: ds, r1) =>
    if d = 0 ∧ ds ≠ [] then none
    else
      match parseFrac r1 with
      | none => none
      | some (fds, r2) =>
        match parseExp r2 with
        | none => none
        | some (e, r3) =>
          let mantNat := digitsToNat (d :: ds ++ fds)
          let mant : Int := if signSplit.1 then -(mantNat : Int) else (mantNat : Int)
          some ((mant, e - fds.length), r3)

def escCharOf (e : Char) : Option Char :=
  if e = '"' then some '"'
  else if e = '\\' then some '\\'
  else if e = '/' then some '/'
  else if e = 'b' then some (Char.ofNat 8)
  else if e = 'f' then some (Char.ofNat 12)
  else if e = 'n' then some (Char.ofNat 10)
  else if e = 'r' then some (Char.ofNat 13)
  else if e = 't' then some (Char.ofNat 9)
  else none

def hexVal (c : Char) : Option Nat :=
  if 48 ≤ c.toNat ∧ c.toNat ≤ 57 then some (c.toNat - 48)
  else if 97 ≤ c.toNat ∧ c.toNat ≤ 102 then some (c.toNat - 87)
  else if 65 ≤ c.toNat ∧ c.toNat ≤ 70 then some (c.toNat - 55)
  else none

def hex4 : List Char → Option (Nat × List Char)
  | a :: b :: c :: d :: t =>
    match hexVal a, hexVal b, hexVal c, hexVal d with
    | some x, some y, some z, some w => some (((x * 16 + y) * 16 + z) * 16 + w, t)
    | _, _, _, _ => none
  | _ => none

/-- Body of a JSON string literal after the opening quote, following Go's
scanner and unquote: closing quote ends it; \uXXXX escapes combine surrogate
pairs and replace lone surrogates with U+FFFD; unescaped control characters
below 0x20 are rejected.  The fuel argument only bounds recursion depth and is
always called with more fuel than input characters. -/
def parseStringBody : Nat → List Char → Option (List Char × List Char)
  | 0, _ => none
  | _, [] => none
  | fuel+1, c :: t =>
    if c = '"' then some ([], t)
    else if c = '\\' then
      match t with
      | [] => none
      | e :: t1 =>
        if e = 'u' then
          match hex4 t1 with
          | none => none
          | some (n, t2) =>
            if 0xD800 ≤ n ∧ n < 0xDC00 then
              match t2 with
              | c1 :: c2 :: t3 =>
                if c1 = '\\' ∧ c2 = 'u' then
                  match hex4 t3 with
                  | some (n2, t4) =>
                    if 0xDC00 ≤ n2 ∧ n2 ≤ 0xDFFF then
                      (parseStringBody fuel t4).map
                        (fun p => (Char.ofNat (0x10000 + (n - 0xD800) * 0x400 + (n2 - 0xDC00)) :: p.1, p.2))
                    else
                      (parseStringBody fuel t2).map (fun p => (Char.ofNat 0xFFFD :: p.1, p.2))
                  | none => (parseStringBody fuel t2).map (fun p => (Char.ofNat 0xFFFD :: p.1, p.2))
                else (parseStringBody fuel t2).map (fun p => (Char.ofNat 0xFFFD :: p.1, p.2))
              | _ => (parseStringBody fuel t2).map (fun p => (Char.ofNat 0xFFFD :: p.1, p.2))
            else if 0xDC00 ≤ n ∧ n ≤ 0xDFFF then
              (parseStringBody fuel t2).map (fun p => (Char.ofNat 0xFFFD :: p.1, p.2))
            else
              (parseStringBody fuel t2).map (fun p => (Char.ofNat n :: p.1, p.2))
        else
          match escCharOf e with
          | some ch => (parseStringBody fuel t1).map (fun p => (ch :: p.1, p.2))
          | none => none
    else if c.toNat < 0x20 then none
    else (parseStringBody fuel t).map (fun p => (c :: p.1, p.2))

mutual
/-- One JSON value (Go scanner state scanBeginLiteral etc.), leading whitespace
already consumed. -/
def parseVal : Nat → List Char → Option (Json × List Char)
  | 0, _ => none
  | fuel+1, cs =>
    match cs with
    | [] => none
    | c :: t =>
      if c = '"' then
        match parseStringBody (t.length + 1) t with
        | some (s, r) => some (.str (String.mk s), r)
        | none => none
      else if c = '[' then parseArrElems fuel (skipWs t)
      else if c = '{' then parseObjFields fuel (skipWs t)
      else if c = 't' then
        match cs with
        | 't' :: 'r' :: 'u' :: 'e' :: r => some (.jbool true, r)
        | _ => none
      else if c = 'f' then
        match cs with
        | 'f' :: 'a' :: 'l' :: 's' :: 'e' :: r => some (.jbool false, r)
        | _ => none
      else if c = 'n' then
        match cs with
        | 'n' :: 'u' :: 'l' :: 'l' :: r => some (.null, r)
        | _ => none
      else
        match parseNumber cs with
        | some (p, r) => some (.num p.1 p.2, r)
        | none => none

/-- Array contents after the opening bracket and whitespace. -/
def parseArrElems : Nat → List Char → Option (Json × List Char)
  | 0, _ => none
  | fuel+1, cs =>
    match cs with
    | ']' :: r => some (.arr .nil, r)
    | _ =>
      match parseVal fuel cs with
      | none => none
      | some (v, r1) =>
        match parseArrTail fuel (skipWs r1) with
        | some (tl, r2) => some (.arr (.cons v tl), r2)
        | none => none

/-- Remaining ", value" groups of an array, then the closing bracket. -/
def parseArrTail : Nat → List Char → Option (JArr × List Char)
  | 0, _ => none
  | fuel+1, cs =>
    match cs with
    | ']' :: r => some (.nil, r)
    | ',' :: t =>
      match parseVal fuel (skipWs t) with
      | none => none
      | some (v, r1) =>
        match parseArrTail fuel (skipWs r1) with
        | some (tl, r2) => some (.cons v tl, r2)
        | none => none
    | _ => none

/-- Object contents after the opening brace and whitespace. -/
def parseObjFields : Nat → List Char → Option (Json × List Char)
  | 0, _ => none
  | fuel+1, cs =>
    match cs with
    | '}' :: r => some (.obj .nil, r)
    | '"' :: t =>
      match parseStringBody (t.length + 1) t with
      | none => none
      | some (k, r1) =>
        match skipWs r1 with
        | ':' :: r2 =>
          (match parseVal fuel (skipWs r2) with
           | none => none
           | some (v, r3) => parseObjTail fuel (skipWs r3) (JObj.insert .nil (String.mk k) v))
        | _ => none
    | _ => none

/-- Remaining ", key : value" groups of an object, then the closing brace. -/
def parseObjTail : Nat → List Char → JObj → Option (Json × List Char)
  | 0, _, _ => none
  | fuel+1, cs, acc =>
    match cs with
    | '}' :: r => some (.obj acc, r)
    | ',' :: t =>
      match skipWs t with
      | '"' :: t1 =>
        match parseStringBody (t1.length + 1) t1 with
        | none => none
        | some (k, r1) =>
          match skipWs r1 with
          | ':' :: r2 =>
            (match parseVal fuel (skipWs r2) with
             | none => none
             | some (v, r3) => parseObjTail fuel (skipWs r3) (JObj.insert acc (String.mk k) v))
          | _ => none
      | _ => none
    | _ => none
end

/-- Full json.Unmarshal of a character sequence into an interface value: one
value, with only whitespace around it.  The fuel bound 2 * length + 4 exceeds
the recursion depth possible on the given input. -/
def jsonParse (cs : List Char) : Option Json :=
  match parseVal (cs.length * 2 + 4) (skipWs cs) with
  | some (v, r) => if skipWs r = [] then some v else none
  | none => none

/-! ### Schema validator (payload package, Validator / extractSchema /
flattenSchema / diffSchemas) -/

/-- Dot-path to JSON-type-name map (Go `type schema map[string]string`). -/
abbrev Schema := List (String × String)

mutual
/-- One iteration body of Go flattenSchema's switch on the value at `path`:
records the type name and recurses into nested objects. -/
def flattenValue (path : String) (v : Json) (s : Schema) : Schema :=
  match v with
  | .obj fields => flattenSchema fields path (insertKV s path "object")
  | .arr _ => insertKV s path "array"
  | .str _ => insertKV s path "string"
  | .num _ _ => insertKV s path "number"
  | .jbool _ => insertKV s path "bool"
  | .null => insertKV s path "null"

/-- Go flattenSchema: walks an object's fields, extending the path with dots. -/
def flattenSchema (fields : JObj) (pre : String) (s : Schema) : Schema :=
  match fields with
  | .nil => s
  | .cons k v rest =>
    flattenSchema rest pre (flattenValue (if pre = "" then k else pre ++ "." ++ k) v s)
end

/-- Go extractSchema: unmarshal, require a top-level object, flatten. -/
def extractSchema (data : String) : Option Schema :=
  match jsonParse data.data with
  | some (.obj fields) => some (flattenSchema fields "" [])
  | _ => none

inductive MismatchKind where
  | missing
  | added
  | typeChange
deriving DecidableEq

/-- Wire value of the kind (Go MismatchKind string constants). -/
def kindStr : MismatchKind → String
  | .missing => "MISSING_FIELD"
  | .added => "ADDED_FIELD"
  | .typeChange => "TYPE_CHANGE"

/-- Go struct Mismatch. -/
structure Mismatch where
  kind : MismatchKind
  field : String
  baselineType : String
  currentType : String
deriving DecidableEq

/-- Order used by Go's sort.Slice call in diffSchemas: by field, then by kind
string.  Stated as the reflexive order corresponding to the strict less. -/
def mismatchLe (a b : Mismatch) : Prop :=
  strLt a.field b.field = true ∨
    (a.field = b.field ∧ strLt (kindStr b.kind) (kindStr a.kind) = false)

instance : DecidableRel mismatchLe := fun a b => by
  unfold mismatchLe; infer_instance

/-- First loop body of Go diffSchemas: baseline entry missing or type-changed
in current. -/
def missOrChange (current : Schema) (p : String × String) : List Mismatch :=
  match alookup current p.1 with
  | none => [⟨.missing, p.1, p.2, ""⟩]
  | some cT => if cT ≠ p.2 then [⟨.typeChange, p.1, p.2, cT⟩] else []

/-- Second loop body of Go diffSchemas: current entry absent from baseline. -/
def addedOf (baseline : Schema) (p : String × String) : List Mismatch :=
  match alookup baseline p.1 with
  | none => [⟨.added, p.1, "", p.2⟩]
  | some _ => []

/-- List concatenation of a per-element production (the Go loops append into
one mismatches slice). -/
def listFlat {α β : Type} (f : α → List β) : List α → List β
  | [] => []
  | x :: t => f x ++ listFlat f t

/-- Go diffSchemas: both loops, then the deterministic (field, kind) sort.
Go's sort.Slice is modelled by insertion sort; every mismatch list produced
here has pairwise-distinct fields, for which all sorts agree. -/
def diffSchemas (baseline current : Schema) : List Mismatch :=
  List.insertionSort mismatchLe
    (listFlat (missOrChange current) baseline ++ listFlat (addedOf baseline) current)

/-- Validator state: the learned baseline (Go Validator.baseline; nil = none). -/
abbrev ValidatorState := Option Schema

/-- Go Validator.Learn: on parse success installs the new baseline, on failure
returns an error (Bool false) leaving the baseline unchanged. -/
def learn (st : ValidatorState) (data : String) : ValidatorState × Bool :=
  match extractSchema data with
  | none => (st, false)
  | some s => (some s, true)

/-- Go Validator.Validate: parse failure returns an error (none); with no
baseline adopts the current schema and returns an empty list; otherwise
returns the diff against the baseline. -/
def validate (st : ValidatorState) (data : String) :
    ValidatorState × Option (List Mismatch) :=
  match extractSchema data with
  | none => (st, none)
  | some current =>
    match st with
    | none => (some current, some [])
    | some b => (some b, some (diffSchemas b current))

mutual
theorem nodupKeys_flattenValue (path : String) (v : Json) (s : Schema)
    (h : nodupKeys s) : nodupKeys (flattenValue path v s) := by
  cases v with
  | obj fields =>
    exact nodupKeys_flattenSchema fields path _ (nodupKeys_insertKV s path "object" h)
  | arr xs => exact nodupKeys_insertKV s path "array" h
  | str s' => exact nodupKeys_insertKV s path "string" h
  | num m e => exact nodupKeys_insertKV s path "number" h
  | jbool b => exact nodupKeys_insertKV s path "bool" h
  | null => exact nodupKeys_insertKV s path "null" h

theorem nodupKeys_flattenSchema (fields : JObj) (pre : String) (s : Schema)
    (h : nodupKeys s) : nodupKeys (flattenSchema fields pre s) := by
  cases fields with
  | nil => simpa [flattenSchema] using h
  | cons k v rest =>
    exact nodupKeys_flattenSchema rest pre _
      (nodupKeys_flattenValue (if pre = "" then k else pre ++ "." ++ k) v s h)
end

theorem nodupKeys_extractSchema (data : String) (s : Schema)
    (h : extractSchema data = some s) : nodupKeys s := by
  unfold extractSchema at h
  cases hp : jsonParse data.data with
  | none => rw [hp] at h; exact absurd h (by simp)
  | some v =>
    rw [hp] at h
    cases v with
    | obj fields =>
      have : flattenSchema fields "" [] = s := by simpa using h
      rw [← this]
      exact nodupKeys_flattenSchema fields "" [] (by simp [nodupKeys])
    | str s' => simp at h
    | num m e => simp at h
    | jbool b => simp at h
    | null => simp at h
    | arr xs => simp at h

theorem charListLt_irrefl (a : List Char) : charListLt a a = false := by
  induction a with
  | nil => rfl
  | cons x xs ih => simp [charListLt, ih]

theorem strLt_irrefl (a : String) : strLt a a = false := charListLt_irrefl a.data

theorem strLt_asymm (a b : String) (h : strLt a b = true) : strLt b a = false := by
  by_contra hc
  have hba : strLt b a = true := by
    cases hx : strLt b a
    · exact absurd hx hc
    · rfl
  have := strLt_trans a b a h hba
  rw [strLt_irrefl] at this
  exact Bool.false_ne_true this

theorem bool_false_of_not_true {b : Bool} (h : ¬ b = true) : b = false := by
  cases b
  · rfl
  · exact absurd rfl h

instance : IsTotal Mismatch mismatchLe := by
  constructor
  intro a b
  unfold mismatchLe
  by_cases hf : strLt a.field b.field = true
  · exact Or.inl (Or.inl hf)
  · by_cases hf' : strLt b.field a.field = true
    · exact Or.inr (Or.inl hf')
    · have he := strLt_conn a.field b.field (bool_false_of_not_true hf)
        (bool_false_of_not_true hf')
      by_cases hk : strLt (kindStr b.kind) (kindStr a.kind) = true
      · exact Or.inr (Or.inr ⟨he.symm, strLt_asymm _ _ hk⟩)
      · exact Or.inl (Or.inr ⟨he, bool_false_of_not_true hk⟩)

instance : IsTrans Mismatch mismatchLe := by
  constructor
  intro a b c hab hbc
  unfold mismatchLe at hab hbc ⊢
  rcases hab with hab | ⟨hab1, hab2⟩
  · rcases hbc with hbc | ⟨hbc1, hbc2⟩
    · exact Or.inl (strLt_trans _ _ _ hab hbc)
    · exact Or.inl (hbc1 ▸ hab)
  · rcases hbc with hbc | ⟨hbc1, hbc2⟩
    · exact Or.inl (hab1 ▸ hbc)
    · refine Or.inr ⟨hab1.trans hbc1, ?_⟩
      by_cases hk : strLt (kindStr c.kind) (kindStr a.kind) = true
      · exfalso
        by_cases hk2 : strLt (kindStr b.kind) (kindStr c.kind) = true
        · have h3 := strLt_trans _ _ _ hk2 hk
          rw [hab2] at h3
          exact Bool.false_ne_true h3
        · have he := strLt_conn _ _ (bool_false_of_not_true hk2) hbc2
          rw [he] at hab2
          rw [hk] at hab2
          exact absurd hab2 (by simp)
      · exact bool_false_of_not_true hk

theorem mem_listFlat {α β : Type} (f : α → List β) (l : List α) (y : β) :
    y ∈ listFlat f l ↔ ∃ x ∈ l, y ∈ f x := by
  induction l with
  | nil => simp [listFlat]
  | cons x t ih => simp [listFlat, ih]

theorem listFlat_eq_nil {α β : Type} (f : α → List β) (l : List α)
    (h : ∀ x ∈ l, f x = []) : listFlat f l = [] := by
  induction l with
  | nil => rfl
  | cons x t ih =>
    simp only [listFlat, h x (List.mem_cons_self x t)]
    exact ih (fun x hx => h x (List.mem_cons_of_mem _ hx))

theorem diffSchemas_self (s : Schema) (hnd : nodupKeys s) : diffSchemas s s = [] := by
  unfold diffSchemas
  have h1 : listFlat (missOrChange s) s = [] := by
    apply listFlat_eq_nil
    rintro ⟨k, v⟩ hm
    unfold missOrChange
    rw [alookup_of_mem_nodup s k v hnd hm]
    simp
  have h2 : listFlat (addedOf s) s = [] := by
    apply listFlat_eq_nil
    rintro ⟨k, v⟩ hm
    unfold addedOf
    obtain ⟨w, hw⟩ := alookup_eq_some_of_mem s k v hm
    rw [hw]
  rw [h1, h2]
  rfl

/-! ### Token refresh manager (token package, TokenRefreshManager) -/

/-- Option-valued map over a list (all-or-nothing). -/
def mapOpt {α β : Type} (f : α → Option β) : List α → Option (List β)
  | [] => some []
  | x :: t =>
    match f x, mapOpt f t with
    | some y, some ys => some (y :: ys)
    | _, _ => none

/-- Value of one character of the base64url alphabet (Go
base64.RawURLEncoding): A-Z, a-z, 0-9, minus, underscore. -/
def b64Val (c : Char) : Option Nat :=
  if 65 ≤ c.toNat ∧ c.toNat ≤ 90 then some (c.toNat - 65)
  else if 97 ≤ c.toNat ∧ c.toNat ≤ 122 then some (c.toNat - 71)
  else if 48 ≤ c.toNat ∧ c.toNat ≤ 57 then some (c.toNat + 4)
  else if c = '-' then some 62
  else if c = '_' then some 63
  else none

/-- Byte assembly of unpadded base64 groups: a trailing group of one character
is invalid, two characters yield one byte, three yield two (Go's default
decoder does not reject non-zero trailing bits). -/
def b64Groups : List Nat → Option (List Nat)
  | [] => some []
  | [_] => none
  | [a, b] => some [a * 4 + b / 16]
  | [a, b, c] => some [a * 4 + b / 16, (b % 16) * 16 + c / 4]
  | a :: b :: c :: d :: rest =>
    match b64Groups rest with
    | some bs => some ((a * 4 + b / 16) :: ((b % 16) * 16 + c / 4) :: ((c % 4) * 64 + d) :: bs)
    | none => none

/-- Go base64.RawURLEncoding.DecodeString: newline and carriage-return
characters are ignored, any other character outside the alphabet is an error. -/
def base64UrlDecode (cs : List Char) : Option (List Nat) :=
  match mapOpt b64Val (cs.filter (fun c => (c.toNat != 10) && (c.toNat != 13))) with
  | some vals => b64Groups vals
  | none => none

/-- Strict UTF-8 decoding of a byte list (continuation, overlong, surrogate
and range checks).  Go's json scanner additionally maps invalid sequences
inside string literals to U+FFFD; payloads that are not valid UTF-8 are out of
scope of the claims settled here. -/
def utf8Decode : List Nat → Option (List Char)
  | [] => some []
  | b :: rest =>
    if b < 0x80 then
      match utf8Decode rest with
      | some cs => some (Char.ofNat b :: cs)
      | none => none
    else if b < 0xC2 then none
    else if b ≤ 0xDF then
      match rest with
      | b2 :: rest2 =>
        if 0x80 ≤ b2 ∧ b2 ≤ 0xBF then
          match utf8Decode rest2 with
          | some cs => some (Char.ofNat ((b - 0xC0) * 64 + (b2 - 0x80)) :: cs)
          | none => none
        else none
      | [] => none
    else if b ≤ 0xEF then
      match rest with
      | b2 :: b3 :: rest3 =>
        if (if b = 0xE0 then 0xA0 else 0x80) ≤ b2 ∧ b2 ≤ (if b = 0xED then 0x9F else 0xBF)
            ∧ 0x80 ≤ b3 ∧ b3 ≤ 0xBF then
          match utf8Decode rest3 with
          | some cs =>
            some (Char.ofNat ((b - 0xE0) * 4096 + (b2 - 0x80) * 64 + (b3 - 0x80)) :: cs)
          | none => none
        else none
      | _ => none
    else if b ≤ 0xF4 then
      match rest with
      | b2 :: b3 :: b4 :: rest4 =>
        if (if b = 0xF0 then 0x90 else 0x80) ≤ b2 ∧ b2 ≤ (if b = 0xF4 then 0x8F else 0xBF)
            ∧ 0x80 ≤ b3 ∧ b3 ≤ 0xBF ∧ 0x80 ≤ b4 ∧ b4 ≤ 0xBF then
          match utf8Decode rest4 with
          | some cs =>
            some (Char.ofNat ((b - 0xF0) * 262144 + (b2 - 0x80) * 4096 + (b3 - 0x80) * 64 + (b4 - 0x80)) :: cs)
          | none => none
        else none
      | _ => none
    else none

/-- Split on a separator character; n separators yield n+1 parts (Go
strings.Split with a one-character separator). -/
def splitOnChar (sep : Char) : List Char → List (List Char)
  | [] => [[]]
  | c :: t =>
    if c = sep then [] :: splitOnChar sep t
    else
      match splitOnChar sep t with
      | [] => [[c]]
      | h :: r => (c :: h) :: r

/-- Go TokenRefreshManager.ParseClaims: split on dots into exactly three
segments, base64url-decode the payload without padding, JSON-decode into a
map.  Any failure is a parse error (none). -/
def parseClaims (token : String) : Option JObj :=
  match splitOnChar '.' token.data with
  | [_, payload, _] =>
    match base64UrlDecode payload with
    | none => none
    | some bytes =>
      match utf8Decode bytes with
      | none => none
      | some chars =>
        match jsonParse chars with
        | some (.obj fields) => some fields
        | _ => none
  | _ => none

/-- Go conversion int64(f) of a float64 holding mantissa * 10 ^ exp10:
truncation toward zero. -/
def truncNum (m e : Int) : Int :=
  if 0 ≤ e then m * 10 ^ e.toNat else Int.tdiv m (10 ^ (-e).toNat)

/-- Value comparison mantissa * 10 ^ exp10 ≤ z over the rationals, expressed
with integer arithmetic (the denominators are positive powers of ten). -/
def numLeInt (m e z : Int) : Prop :=
  if 0 ≤ e then m * 10 ^ e.toNat ≤ z else m ≤ z * 10 ^ (-e).toNat

instance (m e z : Int) : Decidable (numLeInt m e z) := by
  unfold numLeInt; infer_instance

/-- Go TokenRefreshManager.IsExpired evaluated with time.Now().Unix() = now
(seconds): unparsable tokens are expired; a missing or non-numeric exp claim
is not expired; otherwise expired exactly when now >= int64(exp). -/
def isExpired (now : Int) (token : String) : Bool :=
  match parseClaims token with
  | none => true
  | some claims =>
    match claims.lookup "exp" with
    | some (.num m e) => decide (truncNum m e ≤ now)
    | _ => false

/-- Claim value of "exp" when it parses to a number, as (mantissa, exp10). -/
def expClaim (token : String) : Option (Int × Int) :=
  match parseClaims token with
  | some claims =>
    match claims.lookup "exp" with
    | some (.num m e) => some (m, e)
    | _ => none
  | none => none

/-- Decision taken by one tick of the goroutine launched by Go
TokenRefreshManager.StartAutoRefresh, with now and refreshBefore in
nanoseconds: returns true exactly when the tick calls Refresh.  An empty
token is skipped; an unparsable token refreshes; with a numeric exp claim the
tick refreshes when time.Now() is after time.Unix(int64(exp), 0) minus
refreshBefore; otherwise it does nothing. -/
def autoRefreshTick (now refreshBefore : Int) (tok : String) : Bool :=
  if tok = "" then false
  else
    match parseClaims tok with
    | none => true
    | some claims =>
      match claims.lookup "exp" with
      | some (.num m e) => decide (truncNum m e * 1000000000 - refreshBefore < now)
      | _ => false

/-! ### Global Cookie Jar and master RPC reads (cluster package) -/

/-- Wire cookie record (cluster pb.Cookie). -/
structure Cookie where
  name : String
  value : String
  domain : String
  path : String
  expiresUnix : Int
  secure : Bool
  httpOnly : Bool
deriving DecidableEq

/-- Fields of Go net/http Cookie as constructed by GlobalCookieJar.ToHTTPCookies
(the expiry is not carried over there). -/
structure HTTPCookieOut where
  name : String
  value : String
  domain : String
  path : String
  secure : Bool
  httpOnly : Bool
deriving DecidableEq

/-- Go GlobalCookieJar: name-keyed entries plus the version counter.  The
StoredAt timestamp of cookieEntry is read by no claim-relevant code path and
is omitted. -/
structure GlobalCookieJar where
  entries : List (String × Cookie)
  version : Int
deriving DecidableEq

/-- Go NewGlobalCookieJar. -/
def newGlobalCookieJar : GlobalCookieJar := { entries := [], version := 0 }

/-- Go GlobalCookieJar.Store: writes every cookie under its name
(replace-by-name), then increments the version once and returns it. -/
def jarStore (j : GlobalCookieJar) (cookies : List Cookie) : GlobalCookieJar × Int :=
  let es := cookies.foldl (fun acc c => insertKV acc c.name c) j.entries
  ({ entries := es, version := j.version + 1 }, j.version + 1)

/-- Go GlobalCookieJar.Snapshot: all stored cookies plus the version; no
filtering of any kind. -/
def jarSnapshot (j : GlobalCookieJar) : List Cookie × Int :=
  (j.entries.map Prod.snd, j.version)

def cookieToHTTP (c : Cookie) : HTTPCookieOut :=
  { name := c.name
    value := c.value
    domain := c.domain
    path := c.path
    secure := c.secure
    httpOnly := c.httpOnly }

/-- Go GlobalCookieJar.ToHTTPCookies evaluated at time.Now().Unix() = now:
skips cookies with a positive expiry in the past. -/
def jarToHTTPCookies (j : GlobalCookieJar) (now : Int) : List HTTPCookieOut :=
  ((j.entries.map Prod.snd).filter
    (fun c => ! decide (0 < c.expiresUnix ∧ c.expiresUnix < now))).map cookieToHTTP

/-- Go MasterControllerServer.GetGlobalCookies: returns the jar snapshot. -/
def getGlobalCookies (j : GlobalCookieJar) : List Cookie × Int := jarSnapshot j

/-- Initial message of Go MasterControllerServer.WatchCookies: the jar
snapshot at subscription time. -/
def watchInitialSnapshot (j : GlobalCookieJar) : List Cookie × Int := jarSnapshot j

/-- Go MasterControllerServer.BroadcastCookie: empty input is rejected
(InvalidArgument, no state change); otherwise Store then Snapshot, and the
snapshot/version pair is the payload fanned out to every subscriber. -/
def broadcastCookie (j : GlobalCookieJar) (cookies : List Cookie) :
    GlobalCookieJar × Option (List Cookie × Int) :=
  if cookies.isEmpty then (j, none)
  else
    let s := jarStore j cookies
    (s.1, some ((jarSnapshot s.1).1, s.2))

/-! ### Worker pool (worker package, WorkerPool) -/

/-- Outcome of running one submitted job closure. -/
inductive JobOutcome where
  | ret
  | panics
deriving DecidableEq

/-- Number of jobs a single worker goroutine starts, given the sequence of
jobs it receives from the queue.  The Go worker body is
`for job := range wp.jobQueue { job() }` with no recover, so the first
panicking job is the last one started by that goroutine (and the unrecovered
panic takes down the Go process). -/
def workerRun : List JobOutcome → Nat
  | [] => 0
  | .ret :: t => workerRun t + 1
  | .panics :: _ => 1

/-- True when the worker goroutine dies of an unrecovered panic. -/
def workerCrashes : List JobOutcome → Bool
  | [] => false
  | .ret :: t => workerCrashes t
  | .panics :: _ => true

/-! ### Ordered header (client package, OrderedHeader) -/

/-- Byte allowed in a header field name (Go textproto token characters). -/
def isTokenChar (c : Char) : Bool :=
  let n := c.toNat
  (48 ≤ n && n ≤ 57) || (65 ≤ n && n ≤ 90) || (97 ≤ n && n ≤ 122) ||
  n == 33 || n == 35 || n == 36 || n == 37 || n == 38 || n == 39 || n == 42 ||
  n == 43 || n == 45 || n == 46 || n == 94 || n == 95 || n == 96 || n == 124 ||
  n == 126

/-- Casing pass of Go textproto canonicalMIMEHeaderKey: uppercase a letter at
the start and after each dash, lowercase elsewhere. -/
def canonChars : Bool → List Char → List Char
  | _, [] => []
  | upper, c :: t =>
    let c' :=
      if upper ∧ 97 ≤ c.toNat ∧ c.toNat ≤ 122 then Char.ofNat (c.toNat - 32)
      else if ¬ upper ∧ 65 ≤ c.toNat ∧ c.toNat ≤ 90 then Char.ofNat (c.toNat + 32)
      else c
    c' :: canonChars (c' = '-') t

/-- Go http.CanonicalHeaderKey: canonical casing, or the key unchanged when it
contains a byte that is not a valid header-field byte. -/
def canonicalHeaderKey (s : String) : String :=
  if s.data.all isTokenChar then String.mk (canonChars true s.data) else s

/-- Go headerEntry. -/
structure HeaderEntry where
  key : String
  value : String
deriving DecidableEq

/-- Go OrderedHeader.Add: append preserving casing. -/
def addH (h : List HeaderEntry) (k v : String) : List HeaderEntry :=
  h ++ [{ key := k, value := v }]

/-- Loop of Go OrderedHeader.Set: the first canonically matching entry is
replaced by (key, value), later matches are dropped, others are kept in
order; when nothing matched, the pair is appended. -/
def setLoop (k v canonKey : String) : List HeaderEntry → Bool → List HeaderEntry
  | [], replaced => if replaced then [] else [{ key := k, value := v }]
  | e :: t, replaced =>
    if canonicalHeaderKey e.key = canonKey then
      if replaced then setLoop k v canonKey t true
      else { key := k, value := v } :: setLoop k v canonKey t true
    else e :: setLoop k v canonKey t replaced

/-- Go OrderedHeader.Set. -/
def setH (h : List HeaderEntry) (k v : String) : List HeaderEntry :=
  setLoop k v (canonicalHeaderKey k) h false

/-! ### Per-key distributed lock (cluster package, InMemoryLock) -/

/-- State of one key of an InMemoryLock at the moment Lock is called:
the waiter count recorded in the map entry (0 when the key is absent), and
whether the per-key mutex is held by some other goroutine. -/
structure KeyState where
  waiters : Int
  heldByOther : Bool
deriving DecidableEq

/-- Observable outcome of one Lock call after the call and its helper
goroutine have settled. -/
structure LockResult where
  err : Bool
  callerHoldsLock : Bool
  waitersAfter : Int
  keyInMapAfter : Bool
deriving DecidableEq

/-- Go InMemoryLock.Lock called with an already-cancelled context.  The call
increments the waiter count (getOrCreate), spawns a goroutine that acquires
the per-key mutex, and selects between that acquisition and ctx.Done(); with
a cancelled context both select cases can be ready, and Go chooses between
ready cases pseudo-randomly.  gRanFirst says whether the helper goroutine
acquired the free mutex before the select evaluated; selectPicksAcquired is
the select's pseudo-random choice when both cases are ready.  On the
ctx.Done() branch the waiter count is decremented, the entry is deleted at
zero, and the helper's eventual acquisition is immediately unlocked. -/
def lockCancelledCtx (ks : KeyState) (gRanFirst selectPicksAcquired : Bool) : LockResult :=
  let w1 := ks.waiters + 1
  let acquiredReady := !ks.heldByOther && gRanFirst
  if acquiredReady && selectPicksAcquired then
    { err := false, callerHoldsLock := true, waitersAfter := w1, keyInMapAfter := true }
  else
    { err := true
      callerHoldsLock := false
      waitersAfter := w1 - 1
      keyInMapAfter := decide (w1 - 1 ≠ 0) }

/-! ### Heartbeat manager (token package, HeartbeatManager) -/

/-- Parsed Set-Cookie entry (Go net/http Cookie as returned by
Response.Cookies(); the fields beyond name and value are never inspected by
HeartbeatManager and are omitted). -/
structure RespCookie where
  name : String
  value : String
deriving DecidableEq

/-- Go SessionState. -/
structure SessionState where
  sessionID : Int
  token : String
  cookies : List RespCookie
  lastRefreshed : Int
  available : Bool
deriving DecidableEq

/-- View of a Go http.Response as read by ExtractFromResponse: the parsed
Set-Cookie entries (resp.Cookies(); empty when the response carries no
Set-Cookie header) and the Authorization response header. -/
structure HTTPResponse where
  setCookies : List RespCookie
  authHeader : String
deriving DecidableEq

/-- Inner loop of Go mergeCookies: replace the first same-name entry. -/
def replaceByName : List RespCookie → RespCookie → Option (List RespCookie)
  | [], _ => none
  | e :: t, u =>
    if e.name = u.name then some (u :: t)
    else (replaceByName t u).map (fun t' => e :: t')

/-- Go mergeCookies: updates replace same-name entries and append otherwise. -/
def mergeCookies (existing updates : List RespCookie) : List RespCookie :=
  updates.foldl
    (fun out u =>
      match replaceByName out u with
      | some out' => out'
      | none => out ++ [u])
    existing

/-- ASCII lowering (Go strings.ToLower; cookie names are ASCII in every use
relevant to the claims). -/
def asciiToLower (s : String) : String :=
  String.mk (s.data.map (fun c =>
    if 65 ≤ c.toNat ∧ c.toNat ≤ 90 then Char.ofNat (c.toNat + 32) else c))

def listHasPre : List Char → List Char → Bool
  | [], _ => true
  | _ :: _, [] => false
  | a :: as, b :: bs => a = b && listHasPre as bs

def containsSub : List Char → List Char → Bool
  | [], n => listHasPre n []
  | c :: t, n => listHasPre n (c :: t) || containsSub t n

/-- Go strings.Contains. -/
def strContains (s sub : String) : Bool := containsSub s.data sub.data

/-- Go strings.HasPrefix. -/
def strHasPre (s p : String) : Bool := listHasPre p.data s.data

/-- Cookie treated as carrying a JWT (name contains "jwt" or "token",
case-insensitively). -/
def cookieIsJWT (c : RespCookie) : Bool :=
  strContains (asciiToLower c.name) "jwt" || strContains (asciiToLower c.name) "token"

/-- First JWT-bearing cookie of the newly extracted cookies (the Go loop
breaks at the first hit). -/
def firstJWTCookie : List RespCookie → Option String
  | [] => none
  | c :: t => if cookieIsJWT c then some c.value else firstJWTCookie t

/-- Session-state map of the HeartbeatManager (sync.Map keyed by int). -/
def stateLookup : List (Int × SessionState) → Int → Option SessionState
  | [], _ => none
  | (i, s) :: t, id => if i = id then some s else stateLookup t id

def stateInsert : List (Int × SessionState) → Int → SessionState → List (Int × SessionState)
  | [], id, s => [(id, s)]
  | (i, s') :: t, id, s => if i = id then (id, s) :: t else (i, s') :: stateInsert t id s

/-- Go HeartbeatManager.ExtractFromResponse evaluated at time.Now() = now:
nil responses and responses whose parsed Set-Cookie list is empty return
without touching the map; otherwise the state is rebuilt from the existing
entry (or a fresh zero state), cookies merged, the JWT taken from the first
jwt/token cookie and overridden by an Authorization Bearer header, marked
available, stamped, and stored. -/
def extractFromResponse (states : List (Int × SessionState)) (sessionID now : Int)
    (resp : Option HTTPResponse) : List (Int × SessionState) :=
  match resp with
  | none => states
  | some r =>
    if r.setCookies.isEmpty then states
    else
      let base : SessionState :=
        match stateLookup states sessionID with
        | some existing => existing
        | none =>
          { sessionID := sessionID
            token := ""
            cookies := []
            lastRefreshed := 0
            available := false }
      let merged := mergeCookies base.cookies r.setCookies
      let tok1 :=
        match firstJWTCookie r.setCookies with
        | some v => v
        | none => base.token
      let tok2 :=
        if strHasPre r.authHeader "Bearer " then String.mk (r.authHeader.data.drop 7)
        else tok1
      stateInsert states sessionID
        { base with
          cookies := merged
          lastRefreshed := now
          available := true
          token := tok2 }

/-! ### Characterisation of diffSchemas -/

theorem alookup_eq_none_iff {α : Type} (l : List (String × α)) (k : String) :
    alookup l k = none ↔ k ∉ l.map Prod.fst := by
  induction l with
  | nil => simp [alookup]
  | cons hd t ih =>
    obtain ⟨k', v'⟩ := hd
    by_cases hk : k' = k
    · subst hk; simp [alookup]
    · simp [alookup, hk, ih, Ne.symm hk]

theorem mem_missOrChange (c : Schema) (p : String × String) (m : Mismatch) :
    m ∈ missOrChange c p ↔
      ((alookup c p.1 = none ∧ m = ⟨.missing, p.1, p.2, ""⟩) ∨
       (∃ cT, alookup c p.1 = some cT ∧ cT ≠ p.2 ∧ m = ⟨.typeChange, p.1, p.2, cT⟩)) := by
  unfold missOrChange
  cases h : alookup c p.1 with
  | none => simp
  | some cT =>
    by_cases hne : cT ≠ p.2
    · simp [hne]
    · simp [hne]

theorem mem_addedOf (b : Schema) (p : String × String) (m : Mismatch) :
    m ∈ addedOf b p ↔ (alookup b p.1 = none ∧ m = ⟨.added, p.1, "", p.2⟩) := by
  unfold addedOf
  cases h : alookup b p.1 <;> simp

/-- Specification of one mismatch of diffSchemas in terms of the two schema
maps: exactly the three classes of the Go loops. -/
def mismatchSpec (b c : Schema) (m : Mismatch) : Prop :=
  (m.kind = .missing ∧ alookup b m.field = some m.baselineType ∧
    alookup c m.field = none ∧ m.currentType = "") ∨
  (m.kind = .typeChange ∧ alookup b m.field = some m.baselineType ∧
    alookup c m.field = some m.currentType ∧ m.currentType ≠ m.baselineType) ∨
  (m.kind = .added ∧ alookup b m.field = none ∧
    alookup c m.field = some m.currentType ∧ m.baselineType = "")

theorem mem_diffSchemas_iff (b c : Schema) (hb : nodupKeys b) (hc : nodupKeys c)
    (m : Mismatch) : m ∈ diffSchemas b c ↔ mismatchSpec b c m := by
  unfold diffSchemas
  rw [(List.perm_insertionSort mismatchLe _).mem_iff, List.mem_append,
    mem_listFlat, mem_listFlat]
  unfold mismatchSpec
  constructor
  · rintro (⟨p, hp, hm⟩ | ⟨p, hp, hm⟩)
    · rcases (mem_missOrChange c p m).mp hm with ⟨hnone, rfl⟩ | ⟨cT, hsome, hne, rfl⟩
      · exact Or.inl ⟨rfl, alookup_of_mem_nodup b p.1 p.2 hb hp, hnone, rfl⟩
      · exact Or.inr (Or.inl ⟨rfl, alookup_of_mem_nodup b p.1 p.2 hb hp, hsome, hne⟩)
    · rcases (mem_addedOf b p m).mp hm with ⟨hnone, rfl⟩
      · exact Or.inr (Or.inr ⟨rfl, hnone, alookup_of_mem_nodup c p.1 p.2 hc hp, rfl⟩)
  · intro hsp
    obtain ⟨mk, mf, mb, mc⟩ := m
    rcases hsp with ⟨hk, hbl, hcl, hct⟩ | ⟨hk, hbl, hcl, hne⟩ | ⟨hk, hbl, hcl, hbt⟩
    · dsimp only at hk hbl hcl hct
      subst hk
      subst hct
      exact Or.inl ⟨(mf, mb), mem_of_alookup_eq_some b mf mb hbl,
        (mem_missOrChange c (mf, mb) _).mpr (Or.inl ⟨hcl, rfl⟩)⟩
    · dsimp only at hk hbl hcl hne
      subst hk
      exact Or.inl ⟨(mf, mb), mem_of_alookup_eq_some b mf mb hbl,
        (mem_missOrChange c (mf, mb) _).mpr (Or.inr ⟨mc, hcl, hne, rfl⟩)⟩
    · dsimp only at hk hbl hcl hbt
      subst hk
      subst hbt
      exact Or.inr ⟨(mf, mc), mem_of_alookup_eq_some c mf mc hcl,
        (mem_addedOf b (mf, mc) _).mpr ⟨hbl, rfl⟩⟩

theorem pairwise_ne_listFlat (g : (String × String) → List Mismatch)
    (l : List (String × String)) (hnd : nodupKeys l)
    (hf : ∀ p m, m ∈ g p → m.field = p.1) (hlen : ∀ p, (g p).length ≤ 1) :
    (listFlat g l).Pairwise (fun m1 m2 => m1.field ≠ m2.field) := by
  induction l with
  | nil => exact List.Pairwise.nil
  | cons p t ih =>
    simp only [nodupKeys, List.map_cons, List.nodup_cons] at hnd
    rw [listFlat, List.pairwise_append]
    refine ⟨?_, ih hnd.2, ?_⟩
    · cases hgp : g p with
      | nil => exact List.Pairwise.nil
      | cons x rest =>
        cases rest with
        | nil => simp
        | cons y rest2 =>
          have := hlen p
          rw [hgp] at this
          simp at this
    · intro m1 hm1 m2 hm2
      rw [hf p m1 hm1]
      obtain ⟨q, hq, hmq⟩ := (mem_listFlat g t m2).mp hm2
      rw [hf q m2 hmq]
      intro he
      exact hnd.1 (he ▸ List.mem_map_of_mem Prod.fst hq)

theorem length_missOrChange (c : Schema) (p : String × String) :
    (missOrChange c p).length ≤ 1 := by
  unfold missOrChange
  cases alookup c p.1 with
  | none => simp
  | some cT =>
    by_cases hne : cT ≠ p.2 <;> simp [hne]

theorem length_addedOf (b : Schema) (p : String × String) :
    (addedOf b p).length ≤ 1 := by
  unfold addedOf
  cases alookup b p.1 <;> simp

theorem field_of_missOrChange (c : Schema) (p : String × String) (m : Mismatch)
    (h : m ∈ missOrChange c p) : m.field = p.1 := by
  rcases (mem_missOrChange c p m).mp h with ⟨_, rfl⟩ | ⟨cT, _, _, rfl⟩ <;> rfl

theorem field_of_addedOf (b : Schema) (p : String × String) (m : Mismatch)
    (h : m ∈ addedOf b p) : m.field = p.1 := by
  rcases (mem_addedOf b p m).mp h with ⟨_, rfl⟩
  rfl

theorem diffSchemas_fields_pairwise (b c : Schema) (hb : nodupKeys b)
    (hc : nodupKeys c) :
    (diffSchemas b c).Pairwise (fun m1 m2 => m1.field ≠ m2.field) := by
  unfold diffSchemas
  rw [(List.perm_insertionSort mismatchLe _).pairwise_iff (fun h => Ne.symm h)]
  rw [List.pairwise_append]
  refine ⟨pairwise_ne_listFlat _ b hb (field_of_missOrChange c) (length_missOrChange c),
    pairwise_ne_listFlat _ c hc (field_of_addedOf b) (length_addedOf b), ?_⟩
  intro m1 hm1 m2 hm2
  obtain ⟨p, hp, hmp⟩ := (mem_listFlat _ b m1).mp hm1
  obtain ⟨q, hq, hmq⟩ := (mem_listFlat _ c m2).mp hm2
  rw [field_of_missOrChange c p m1 hmp, field_of_addedOf b q m2 hmq]
  rcases (mem_addedOf b q m2).mp hmq with ⟨hqnone, _⟩
  intro he
  rw [alookup_eq_none_iff] at hqnone
  exact hqnone (he ▸ List.mem_map_of_mem Prod.fst hp)

/-! ### Randomised map iteration order (Go `for k, v := range obj`)

Go ranges over a map in randomised order, so each run of Go flattenSchema may
walk the fields of every object node in a different permutation.
flattenSchema above walks the decoded object in textual order; the admissible
traversals of the Go code are exactly the flattenings of the reorderings of
the object tree defined here (flattenSchema never enters arrays, so
reordering below an array is irrelevant and omitted).  extractsTo is the
resulting nondeterministic semantics of one Go extractSchema call. -/

/-- Admissible traversal reorderings of a decoded JSON value.  A Go map range
visits the fields of an object node in an arbitrary permutation (generated,
as for List.Perm, by adjacent swaps, congruence and transitivity), and this
happens independently at every object node; flattenSchema never enters
arrays, so reordering below an array is not modelled (it cannot influence any
write).  The refl constructor covers every leaf and also makes the textual
traversal admissible. -/
inductive JReorder : Json → Json → Prop where
  | refl (v : Json) : JReorder v v
  | objCons (k : String) {v w : Json} {fs gs : JObj} :
      JReorder v w → JReorder (.obj fs) (.obj gs) →
      JReorder (.obj (.cons k v fs)) (.obj (.cons k w gs))
  | objSwap (k1 k2 : String) (v1 v2 : Json) (fs : JObj) :
      JReorder (.obj (.cons k1 v1 (.cons k2 v2 fs)))
        (.obj (.cons k2 v2 (.cons k1 v1 fs)))
  | objTrans {fs gs hs : JObj} :
      JReorder (.obj fs) (.obj gs) → JReorder (.obj gs) (.obj hs) →
      JReorder (.obj fs) (.obj hs)

mutual
/-- Sequence of (dot-path, type name) map writes performed by flattening one
value, in traversal order. -/
def writesVal (path : String) (v : Json) : List (String × String) :=
  match v with
  | .obj fields => (path, "object") :: writesObj fields path
  | .arr _ => [(path, "array")]
  | .str _ => [(path, "string")]
  | .num _ _ => [(path, "number")]
  | .jbool _ => [(path, "bool")]
  | .null => [(path, "null")]

/-- Sequence of map writes performed by flattening an object's fields in list
order. -/
def writesObj (fields : JObj) (pre : String) : List (String × String) :=
  match fields with
  | .nil => []
  | .cons k v rest =>
    writesVal (if pre = "" then k else pre ++ "." ++ k) v ++ writesObj rest pre
end

/-- Replay of a write sequence into the schema map. -/
def applyWrites (ws : List (String × String)) (s : Schema) : Schema :=
  ws.foldl (fun acc p => insertKV acc p.1 p.2) s

theorem applyWrites_append (a b : List (String × String)) (s : Schema) :
    applyWrites (a ++ b) s = applyWrites b (applyWrites a s) :=
  List.foldl_append _ _ a b

mutual
theorem flattenValue_eq_applyWrites (path : String) (v : Json) (s : Schema) :
    flattenValue path v s = applyWrites (writesVal path v) s := by
  cases v with
  | obj fields => exact flattenSchema_eq_applyWrites fields path (insertKV s path "object")
  | arr xs => rfl
  | str s' => rfl
  | num m e => rfl
  | jbool b => rfl
  | null => rfl

theorem flattenSchema_eq_applyWrites (fields : JObj) (pre : String) (s : Schema) :
    flattenSchema fields pre s = applyWrites (writesObj fields pre) s := by
  cases fields with
  | nil => rfl
  | cons k v rest =>
    show flattenSchema rest pre (flattenValue (if pre = "" then k else pre ++ "." ++ k) v s) =
      applyWrites (writesVal (if pre = "" then k else pre ++ "." ++ k) v ++ writesObj rest pre) s
    rw [applyWrites_append, flattenSchema_eq_applyWrites rest pre,
      flattenValue_eq_applyWrites]
end

theorem writesVal_perm {v w : Json} (h : JReorder v w) (path : String) :
    (writesVal path v).Perm (writesVal path w) := by
  induction h generalizing path with
  | refl v => exact List.Perm.refl _
  | objCons k hv hfs ihv ihfs =>
    dsimp only [writesVal, writesObj]
    refine List.Perm.cons _ (List.Perm.append (ihv _) ?_)
    have hacc := ihfs path
    dsimp only [writesVal] at hacc
    exact hacc.cons_inv
  | objSwap k1 k2 v1 v2 fs =>
    dsimp only [writesVal, writesObj]
    refine List.Perm.cons _ ?_
    rw [← List.append_assoc, ← List.append_assoc]
    exact List.perm_append_comm.append_right _
  | objTrans h1 h2 ih1 ih2 => exact (ih1 path).trans (ih2 path)

/-- Root form of the write-sequence permutation: reordering an object's tree
permutes the flat write sequence. -/
theorem writesObj_perm {fs gs : JObj} (h : JReorder (.obj fs) (.obj gs)) :
    (writesObj fs "").Perm (writesObj gs "") := by
  have hv := writesVal_perm h ""
  dsimp only [writesVal] at hv
  exact hv.cons_inv

theorem alookup_applyWrites {ws : List (String × String)} (s : Schema) (k : String)
    (hnd : nodupKeys ws) :
    alookup (applyWrites ws s) k =
      match alookup ws k with
      | some v => some v
      | none => alookup s k := by
  induction ws generalizing s with
  | nil => rfl
  | cons p t ih =>
    obtain ⟨k0, v0⟩ := p
    simp only [nodupKeys, List.map_cons, List.nodup_cons] at hnd
    have ht := ih (insertKV s k0 v0) hnd.2
    have happ : applyWrites ((k0, v0) :: t) s = applyWrites t (insertKV s k0 v0) := rfl
    rw [happ, ht]
    by_cases hk : k0 = k
    · subst hk
      rw [(alookup_eq_none_iff t k0).mpr hnd.1, alookup_insertKV_self]
      simp [alookup]
    · rw [alookup_insertKV_ne s k0 v0 k hk]
      simp only [alookup, if_neg hk]

theorem alookup_eq_of_perm {α : Type} (l l' : List (String × α))
    (hp : l.Perm l') (hnd : nodupKeys l) (k : String) :
    alookup l k = alookup l' k := by
  have hnd' : nodupKeys l' := (hp.map Prod.fst).nodup_iff.mp hnd
  cases h : alookup l k with
  | some v =>
    exact (alookup_of_mem_nodup l' k v hnd'
      (hp.mem_iff.mp (mem_of_alookup_eq_some l k v h))).symm
  | none =>
    rw [alookup_eq_none_iff] at h
    refine ((alookup_eq_none_iff l' k).mpr ?_).symm
    intro hm
    exact h ((hp.map Prod.fst).mem_iff.mpr hm)

theorem diffSchemas_eq_nil_of_lookup_eq (b c : Schema) (hb : nodupKeys b)
    (heq : ∀ k, alookup b k = alookup c k) : diffSchemas b c = [] := by
  unfold diffSchemas
  have h1 : listFlat (missOrChange c) b = [] := by
    apply listFlat_eq_nil
    rintro ⟨k, v⟩ hm
    unfold missOrChange
    rw [← heq k, alookup_of_mem_nodup b k v hb hm]
    simp
  have h2 : listFlat (addedOf b) c = [] := by
    apply listFlat_eq_nil
    rintro ⟨k, v⟩ hm
    unfold addedOf
    obtain ⟨w, hw⟩ := alookup_eq_some_of_mem c k v hm
    rw [heq k, hw]
  rw [h1, h2]
  rfl

/-- Nondeterministic semantics of one Go extractSchema call: json.Unmarshal
fixes the decoded object, the flattening ranges over each object node's Go
map in some arbitrary order.  extractSchema above computes the textual-order
outcome, which is one admissible result (the reflexive reordering). -/
def extractsTo (data : String) (s : Schema) : Prop :=
  ∃ fields fields', jsonParse data.data = some (.obj fields) ∧
    JReorder (.obj fields) (.obj fields') ∧ s = flattenSchema fields' "" []

/-! ### Helper lemmas for the jar, the header list and the worker loop -/

theorem mem_keys_foldl_insert (cs : List Cookie) (es : List (String × Cookie))
    (n : String) (h : n ∈ es.map Prod.fst) :
    n ∈ (cs.foldl (fun acc c => insertKV acc c.name c) es).map Prod.fst := by
  induction cs generalizing es with
  | nil => simpa using h
  | cons c t ih =>
    exact ih _ ((mem_keys_insertKV es c.name c n).mpr (Or.inl h))

theorem nodupKeys_foldl_insert (cs : List Cookie) (es : List (String × Cookie))
    (h : nodupKeys es) :
    nodupKeys (cs.foldl (fun acc c => insertKV acc c.name c) es) := by
  induction cs generalizing es with
  | nil => simpa using h
  | cons c t ih => exact ih _ (nodupKeys_insertKV es c.name c h)

theorem version_foldl_jarStore (css : List (List Cookie)) (j : GlobalCookieJar) :
    (css.foldl (fun acc l => (jarStore acc l).1) j).version = j.version + css.length := by
  induction css generalizing j with
  | nil => simp
  | cons cs t ih =>
    rw [List.foldl_cons, ih]
    simp [jarStore]
    omega

theorem setLoop_replaced_filter (k v canonKey : String) (l : List HeaderEntry) :
    (setLoop k v canonKey l true).filter
      (fun e => canonicalHeaderKey e.key == canonKey) = [] ∧
    (setLoop k v canonKey l true).filter
      (fun e => canonicalHeaderKey e.key != canonKey) =
      l.filter (fun e => canonicalHeaderKey e.key != canonKey) := by
  induction l with
  | nil => simp [setLoop]
  | cons e t ih =>
    by_cases he : canonicalHeaderKey e.key = canonKey
    · simpa [setLoop, he] using ih
    · simp [setLoop, he, List.filter_cons, ih.1, ih.2]

theorem setLoop_unreplaced_filter (k v canonKey : String) (l : List HeaderEntry)
    (hk : canonicalHeaderKey k = canonKey)
    (hm : ∃ e ∈ l, canonicalHeaderKey e.key = canonKey) :
    (setLoop k v canonKey l false).filter
      (fun e => canonicalHeaderKey e.key == canonKey) = [{ key := k, value := v }] ∧
    (setLoop k v canonKey l false).filter
      (fun e => canonicalHeaderKey e.key != canonKey) =
      l.filter (fun e => canonicalHeaderKey e.key != canonKey) := by
  induction l with
  | nil => simp at hm
  | cons e t ih =>
    by_cases he : canonicalHeaderKey e.key = canonKey
    · have hrep := setLoop_replaced_filter k v canonKey t
      constructor
      · simp [setLoop, he, List.filter_cons, hk, hrep.1]
      · simp [setLoop, he, List.filter_cons, hk, hrep.2]
    · obtain ⟨e', he', hce'⟩ := hm
      rcases List.mem_cons.mp he' with rfl | he'mem
      · exact absurd hce' he
      · have := ih ⟨e', he'mem, hce'⟩
        constructor
        · simpa [setLoop, he, List.filter_cons] using this.1
        · simp [setLoop, he, List.filter_cons, this.2]

theorem workerRun_char (q : List JobOutcome) :
    workerRun q = (q.takeWhile (fun j => j == JobOutcome.ret)).length +
      (if workerCrashes q then 1 else 0) ∧
    (workerCrashes q = false ↔ JobOutcome.panics ∉ q) := by
  induction q with
  | nil => simp [workerRun, workerCrashes]
  | cons j t ih =>
    cases j with
    | ret =>
      refine ⟨?_, ?_⟩
      · simp [workerRun, workerCrashes, List.takeWhile_cons, ih.1]
        omega
      · simpa [workerCrashes] using ih.2
    | panics => simp [workerRun, workerCrashes, List.takeWhile_cons]

/-! ### Concrete inputs used by counterexamples and witnesses -/

def expiredCookie : Cookie :=
  { name := "expired"
    value := "v2"
    domain := "example.com"
    path := "/"
    expiresUnix := 1
    secure := false
    httpOnly := false }

def replacementCookie : Cookie :=
  { name := "expired"
    value := "new"
    domain := "example.com"
    path := "/"
    expiresUnix := 0
    secure := false
    httpOnly := false }

/-- JWT whose payload is the JSON object with exp = 1700000000. -/
def tokExp17 : String := "a.eyJleHAiOjE3MDAwMDAwMDB9.b"

/-- JWT whose payload is the JSON object with exp = 1700000000.5 (a value
float64 represents exactly). -/
def tokFrac : String := "a.eyJleHAiOjE3MDAwMDAwMDAuNX0.b"

/-! ### Claim C1 -/

/-- Claim C1 as frozen is false: the jar reads served by the RPCs
(GetGlobalCookies, the WatchCookies initial snapshot, and the per-broadcast
fan-out payload) all use GlobalCookieJar.Snapshot, which does not filter
expired cookies.  A cookie with expires_unix = 1, far in the past at
now = 1700000000, is returned by all three reads; only ToHTTPCookies omits
it. -/
theorem claim_C1_counterexample :
    (getGlobalCookies (jarStore newGlobalCookieJar [expiredCookie]).1).1 = [expiredCookie] ∧
    (watchInitialSnapshot (jarStore newGlobalCookieJar [expiredCookie]).1).1 = [expiredCookie] ∧
    (broadcastCookie newGlobalCookieJar [expiredCookie]).2 = some ([expiredCookie], 1) ∧
    expiredCookie.expiresUnix ≠ 0 ∧ expiredCookie.expiresUnix < 1700000000 ∧
    jarToHTTPCookies (jarStore newGlobalCookieJar [expiredCookie]).1 1700000000 = [] := by
  decide

/-- Claim C1 (amended): expired-cookie filtering happens only in
GlobalCookieJar.ToHTTPCookies, which returns exactly the stored cookies whose
expires_unix is zero or not yet in the past; the RPC reads
(GetGlobalCookies and the WatchCookies initial snapshot) return every stored
cookie unfiltered; and Store never removes an entry. -/
theorem claim_C1_amended (j : GlobalCookieJar) (now : Int) (cs : List Cookie)
    (x : HTTPCookieOut) (n : String) :
    (x ∈ jarToHTTPCookies j now ↔
      ∃ c ∈ j.entries.map Prod.snd,
        ¬(0 < c.expiresUnix ∧ c.expiresUnix < now) ∧ x = cookieToHTTP c) ∧
    (getGlobalCookies j).1 = j.entries.map Prod.snd ∧
    (watchInitialSnapshot j).1 = j.entries.map Prod.snd ∧
    (n ∈ j.entries.map Prod.fst → n ∈ ((jarStore j cs).1.entries.map Prod.fst)) := by
  refine ⟨?_, rfl, rfl, ?_⟩
  · simp only [jarToHTTPCookies, List.mem_map, List.mem_filter,
      Bool.not_eq_true', decide_eq_false_iff_not]
    constructor
    · rintro ⟨c, ⟨hc, hne⟩, rfl⟩
      exact ⟨c, hc, hne, rfl⟩
    · rintro ⟨c, hc, hne, rfl⟩
      exact ⟨c, ⟨hc, hne⟩, rfl⟩
  · intro h
    exact mem_keys_foldl_insert cs j.entries n h

/-- Witness for claim_C1_amended at a concrete jar: after a second Store the
cookie name stored first is still present. -/
theorem claim_C1_witness :
    "expired" ∈ (((jarStore (jarStore newGlobalCookieJar [expiredCookie]).1
      [replacementCookie]).1.entries).map Prod.fst) :=
  (claim_C1_amended (jarStore newGlobalCookieJar [expiredCookie]).1 1700000000
    [replacementCookie] (cookieToHTTP expiredCookie) "expired").2.2.2 (by decide)

/-! ### Claim C2 -/

/-- Claim C2 as frozen is false: the worker loop
`for job := range wp.jobQueue { job() }` contains no recover, so a worker
that receives a panicking job followed by a normal job starts only the first
of its two queued jobs — it does not continue with subsequently queued work,
and the goroutine crashes (taking the Go process, hence the other workers,
with it). -/
theorem claim_C2_counterexample :
    workerRun [JobOutcome.panics, JobOutcome.ret] = 1 ∧
    workerCrashes [JobOutcome.panics, JobOutcome.ret] = true ∧
    workerRun [JobOutcome.panics, JobOutcome.ret] ≠
      [JobOutcome.panics, JobOutcome.ret].length := by
  decide

/-- Claim C2 (amended): panics are not recovered at the worker boundary; a
worker executes exactly its longest panic-free prefix of jobs plus the first
panicking job, it crashes exactly when some job panics, and only a worker
none of whose jobs panic executes all jobs assigned to it. -/
theorem claim_C2_amended (q : List JobOutcome) :
    workerRun q = (q.takeWhile (fun j => j == JobOutcome.ret)).length +
      (if workerCrashes q then 1 else 0) ∧
    (workerCrashes q = false ↔ JobOutcome.panics ∉ q) ∧
    (workerCrashes q = false → workerRun q = q.length) := by
  refine ⟨(workerRun_char q).1, (workerRun_char q).2, ?_⟩
  intro h
  induction q with
  | nil => rfl
  | cons j t ih =>
    cases j with
    | ret =>
      have ht : workerCrashes t = false := by simpa [workerCrashes] using h
      simp [workerRun, ih ht]
    | panics => simp [workerCrashes] at h

/-- Witness for claim_C2_amended: a panic-free queue is fully executed. -/
theorem claim_C2_witness :
    workerRun [JobOutcome.ret, JobOutcome.ret] = 2 := by
  have h := (claim_C2_amended [JobOutcome.ret, JobOutcome.ret]).2.2 (by decide)
  simpa using h

/-! ### Claim C3 -/

/-- Claim C3 as frozen is false: a tick of the StartAutoRefresh goroutine that
observes an empty current token hits `if tok == "" { continue }` and does not
refresh (shown at a realistic wall-clock instant with refreshBefore = 60s). -/
theorem claim_C3_counterexample :
    autoRefreshTick 1700000000000000000 60000000000 "" = false := by decide

/-- Claim C3 (amended): on each tick, an empty token is skipped without
refreshing; an unparsable token refreshes; a token with a numeric exp claim
refreshes exactly when now is after time.Unix(int64(exp), 0) - refreshBefore
(which covers both "expired" and "within refreshBefore of expiry"); a token
without a numeric exp claim does not refresh. -/
theorem claim_C3_amended (now r : Int) (tok : String) :
    (tok = "" → autoRefreshTick now r tok = false) ∧
    (tok ≠ "" → parseClaims tok = none → autoRefreshTick now r tok = true) ∧
    (∀ claims, tok ≠ "" → parseClaims tok = some claims →
      ((∀ m e, claims.lookup "exp" = some (.num m e) →
          (autoRefreshTick now r tok = true ↔ truncNum m e * 1000000000 - r < now)) ∧
       (claims.lookup "exp" = none → autoRefreshTick now r tok = false) ∧
       (∀ v, claims.lookup "exp" = some v → v.isNum = false →
          autoRefreshTick now r tok = false))) := by
  unfold autoRefreshTick
  by_cases ht : tok = ""
  · refine ⟨fun _ => by simp [ht], fun hne => absurd ht hne, fun claims hne => absurd ht hne⟩
  · simp only [if_neg ht]
    cases hp : parseClaims tok with
    | none =>
      refine ⟨fun he => absurd he ht, fun _ _ => rfl, fun claims _ hc => ?_⟩
      exact absurd hc (by simp)
    | some claims0 =>
      refine ⟨fun he => absurd he ht, fun _ hn => absurd hn (by simp), ?_⟩
      intro claims _ hc
      have hcc : claims0 = claims := by
        injection hc
      subst hcc
      dsimp only
      refine ⟨?_, ?_, ?_⟩
      · intro m e hl
        rw [hl]
        simp
      · intro hl
        rw [hl]
      · intro v hl hv
        rw [hl]
        cases v <;> simp [Json.isNum] at hv ⊢

/-- Witness for claim_C3_amended: a tick 59 seconds before an exp =
1700000000 token's expiry refreshes when refreshBefore is 60 seconds. -/
theorem claim_C3_witness :
    autoRefreshTick 1699999941000000000 60000000000 tokExp17 = true := by
  have h := (((claim_C3_amended 1699999941000000000 60000000000 tokExp17).2.2
    (JObj.cons "exp" (Json.num 1700000000 0) JObj.nil) (by decide) rfl).1
    1700000000 0 rfl)
  exact h.mpr (by decide)

/-! ### Claim C4 -/

/-- Claim C4 as frozen is false for fractional exp claims: the payload
exp = 1700000000.5 at now = 1700000000 is not yet expired according to the
claim (exp ≤ now fails), but IsExpired compares now against the int64
truncation of the float64 claim and returns true. -/
theorem claim_C4_counterexample :
    isExpired 1700000000 tokFrac = true ∧
    expClaim tokFrac = some (17000000005, -1) ∧
    ¬ numLeInt 17000000005 (-1) 1700000000 := by decide

/-- Claim C4 (amended): IsExpired(t) at time now returns true if t is
unparsable (not exactly three dot-separated segments whose payload segment
base64url-decodes without padding and JSON-decodes to an object), and
otherwise, for a numeric exp claim, exactly when the int64 truncation of the
claim value is ≤ now (which equals the claim value itself whenever exp is an
integer); if t parses but exp is absent or not numeric, it returns false. -/
theorem claim_C4_amended (now : Int) (t : String) :
    (parseClaims t = none → isExpired now t = true) ∧
    (∀ claims, parseClaims t = some claims →
      ((claims.lookup "exp" = none → isExpired now t = false) ∧
       (∀ m e, claims.lookup "exp" = some (.num m e) →
         (isExpired now t = true ↔ truncNum m e ≤ now)) ∧
       (∀ v, claims.lookup "exp" = some v → v.isNum = false →
         isExpired now t = false))) := by
  unfold isExpired
  cases hp : parseClaims t with
  | none => exact ⟨fun _ => rfl, fun claims hc => absurd hc (by simp)⟩
  | some claims0 =>
    refine ⟨fun h => absurd h (by simp), ?_⟩
    intro claims hc
    have hcc : claims0 = claims := by injection hc
    subst hcc
    dsimp only
    refine ⟨?_, ?_, ?_⟩
    · intro hl
      rw [hl]
    · intro m e hl
      rw [hl]
      simp
    · intro v hl hv
      rw [hl]
      cases v <;> simp [Json.isNum] at hv ⊢

/-- Witness for claim_C4_amended: one second past an integer exp of
1700000000 the token is expired. -/
theorem claim_C4_witness :
    isExpired 1700000001 tokExp17 = true := by
  have h := ((claim_C4_amended 1700000001 tokExp17).2
    (JObj.cons "exp" (Json.num 1700000000 0) JObj.nil) rfl).2.1 1700000000 0 rfl
  exact h.mpr (by decide)

/-! ### Claims C5 and C6 -/

def basePayload : String :=
  "\x7b\x22status\x22:\x22ok\x22,\x22count\x22:42,\x22meta\x22:\x7b\x22page\x22:1,\x22total\x22:100\x7d\x7d"

def driftPayload : String :=
  "\x7b\x22count\x22:\x2242\x22,\x22meta\x22:\x7b\x22page\x22:1\x7d\x7d"

def baseSchema : Schema :=
  [("status", "string"), ("count", "number"), ("meta", "object"),
    ("meta.page", "number"), ("meta.total", "number")]

def driftSchema : Schema :=
  [("count", "string"), ("meta", "object"), ("meta.page", "number")]

def driftMismatches : List Mismatch :=
  [{ kind := .typeChange, field := "count", baselineType := "number", currentType := "string" },
   { kind := .missing, field := "meta.total", baselineType := "number", currentType := "" },
   { kind := .missing, field := "status", baselineType := "string", currentType := "" }]

/-- Decoded object of basePayload in textual order. -/
def baseFields : JObj :=
  .cons "status" (.str "ok") (.cons "count" (.num 42 0)
    (.cons "meta" (.obj (.cons "page" (.num 1 0) (.cons "total" (.num 100 0) .nil))) .nil))

/-- Payload in which the top-level key "a.b" collides with the dot-path of
the nested field b of a. -/
def collidingPayload : String :=
  "\x7b\x22a\x22:\x7b\x22b\x22:1\x7d,\x22a.b\x22:\x22x\x22\x7d"

/-- Decoded object of collidingPayload in textual order. -/
def collidingFields : JObj :=
  .cons "a" (.obj (.cons "b" (.num 1 0) .nil)) (.cons "a.b" (.str "x") .nil)

/-- The same object with the two top-level fields visited in the other
order. -/
def collidingFieldsSwapped : JObj :=
  .cons "a.b" (.str "x") (.cons "a" (.obj (.cons "b" (.num 1 0) .nil)) .nil)

/-- Schema extracted from collidingPayload by the textual traversal. -/
def collidingSchemaA : Schema := [("a", "object"), ("a.b", "string")]

/-- Schema extracted from collidingPayload by the swapped traversal. -/
def collidingSchemaB : Schema := [("a.b", "number"), ("a", "object")]

/-- Claim C5 as frozen is false on payloads where an object key containing a
dot collides with a nested path: Go ranges maps in randomised order, so the
extractions performed by Learn and by Validate of the payload
(in JSON text) a maps-to (b maps-to 1), "a.b" maps-to "x" may traverse the two
top-level fields in different orders.  The textual order writes a.b last as
"string" while the swapped order writes it last as "number"; both are
admissible extractions of the same payload, and Validate then returns a
TYPE_CHANGE for a.b instead of the empty list. -/
theorem claim_C5_counterexample :
    extractsTo collidingPayload collidingSchemaA ∧
    extractsTo collidingPayload collidingSchemaB ∧
    diffSchemas collidingSchemaA collidingSchemaB =
      [{ kind := .typeChange, field := "a.b", baselineType := "string", currentType := "number" }] :=
  ⟨⟨collidingFields, collidingFields, rfl, JReorder.refl _, by decide⟩,
   ⟨collidingFields, collidingFieldsSwapped, rfl,
     JReorder.objSwap "a" "a.b" (.obj (.cons "b" (.num 1 0) .nil)) (.str "x") .nil,
     by decide⟩,
   by decide⟩

/-- Claim C5 (amended): Learn(P) installs one admissible extraction of P and
the following Validate(P) diffs another, independently ordered, admissible
extraction against it; the returned mismatch list is empty for every payload
P that parses as a top-level JSON object and in which no dot-path is written
twice during flattening (in particular whenever no object key collides with a
nested path), whatever iteration orders the two extractions use.  Payloads
with colliding paths can yield a non-empty result depending on Go's
randomised map iteration order. -/
theorem claim_C5_amended (data : String) (fields : JObj) (b c : Schema)
    (hp : jsonParse data.data = some (.obj fields))
    (hnd : nodupKeys (writesObj fields ""))
    (hb : extractsTo data b) (hc : extractsTo data c) :
    diffSchemas b c = [] := by
  obtain ⟨f1, f1', hp1, hr1, hs1⟩ := hb
  obtain ⟨f2, f2', hp2, hr2, hs2⟩ := hc
  rw [hp] at hp1 hp2
  have hf1 : fields = f1 := by
    injection hp1 with h1
    injection h1 with h2
  have hf2 : fields = f2 := by
    injection hp2 with h1
    injection h1 with h2
  subst hf1
  subst hf2
  have hperm1 : (writesObj fields "").Perm (writesObj f1' "") := writesObj_perm hr1
  have hperm2 : (writesObj fields "").Perm (writesObj f2' "") := writesObj_perm hr2
  have hnd1 : nodupKeys (writesObj f1' "") := (hperm1.map Prod.fst).nodup_iff.mp hnd
  have hnd2 : nodupKeys (writesObj f2' "") := (hperm2.map Prod.fst).nodup_iff.mp hnd
  have hlb : ∀ k, alookup b k = alookup (writesObj fields "") k := by
    intro k
    rw [hs1, flattenSchema_eq_applyWrites, alookup_applyWrites ([] : Schema) k hnd1,
      ← alookup_eq_of_perm _ _ hperm1.symm hnd1 k]
    cases alookup (writesObj f1' "") k <;> rfl
  have hlc : ∀ k, alookup c k = alookup (writesObj fields "") k := by
    intro k
    rw [hs2, flattenSchema_eq_applyWrites, alookup_applyWrites ([] : Schema) k hnd2,
      ← alookup_eq_of_perm _ _ hperm2.symm hnd2 k]
    cases alookup (writesObj f2' "") k <;> rfl
  have hndb : nodupKeys b := by
    rw [hs1]
    exact nodupKeys_flattenSchema f1' "" [] (by simp [nodupKeys])
  exact diffSchemas_eq_nil_of_lookup_eq b c hndb
    (fun k => (hlb k).trans (hlc k).symm)

/-- Witness for claim_C5_amended: the spec's collision-free example payload
yields the empty diff, both extractions taken in textual order. -/
theorem claim_C5_witness : diffSchemas baseSchema baseSchema = [] :=
  claim_C5_amended basePayload baseFields baseSchema baseSchema rfl
    (by unfold nodupKeys; decide)
    ⟨baseFields, baseFields, rfl, JReorder.refl _, by decide⟩
    ⟨baseFields, baseFields, rfl, JReorder.refl _, by decide⟩

/-- Claim C6: after a baseline is learned, Validate reports exactly one
mismatch per diverging dot-path — MISSING_FIELD carrying the baseline type
for a path only in the baseline, TYPE_CHANGE for a path in both with
differing types, ADDED_FIELD carrying the current type for a path only in
the current payload (the membership characterisation together with the
pairwise-distinct fields give "exactly one per path") — sorted by
(field, kind); on the spec's example the result is exactly TYPE_CHANGE
count (number → string), MISSING_FIELD meta.total, MISSING_FIELD status, in
(field, kind)-sorted order. -/
theorem claim_C6 (b c : Schema) (hb : nodupKeys b) (hc : nodupKeys c) :
    (∀ m : Mismatch, m ∈ diffSchemas b c ↔ mismatchSpec b c m) ∧
    (diffSchemas b c).Pairwise (fun m1 m2 => m1.field ≠ m2.field) ∧
    List.Sorted mismatchLe (diffSchemas b c) ∧
    (validate (learn none basePayload).1 driftPayload).2 = some driftMismatches := by
  refine ⟨fun m => mem_diffSchemas_iff b c hb hc m,
    diffSchemas_fields_pairwise b c hb hc, ?_, by decide⟩
  unfold diffSchemas
  exact List.sorted_insertionSort mismatchLe _

/-- Witness for claim_C6 at the spec's concrete schemas. -/
theorem claim_C6_witness :
    (validate (learn none basePayload).1 driftPayload).2 = some driftMismatches :=
  (claim_C6 baseSchema driftSchema (by unfold nodupKeys; decide)
    (by unfold nodupKeys; decide)).2.2.2

/-! ### Claim C7 -/

/-- Claim C7: every Store increments the jar version by exactly one and
returns the new version; storing a cookie whose name matches an existing
entry replaces that entry (same entry count, new value under the name); from
a fresh jar, any sequence of Store calls leaves version = number of calls and
at most one entry per cookie name. -/
theorem claim_C7 (j : GlobalCookieJar) (cs : List Cookie)
    (css : List (List Cookie)) (c : Cookie) :
    ((jarStore j cs).2 = j.version + 1 ∧ (jarStore j cs).1.version = j.version + 1) ∧
    ((css.foldl (fun acc l => (jarStore acc l).1) newGlobalCookieJar).version =
      (css.length : Int)) ∧
    (nodupKeys j.entries → nodupKeys ((jarStore j cs).1.entries)) ∧
    (alookup j.entries c.name ≠ none →
      ((jarStore j [c]).1.entries.length = j.entries.length ∧
       alookup ((jarStore j [c]).1.entries) c.name = some c)) := by
  refine ⟨⟨rfl, rfl⟩, ?_, ?_, ?_⟩
  · rw [version_foldl_jarStore]
    simp [newGlobalCookieJar]
  · intro h
    exact nodupKeys_foldl_insert cs j.entries h
  · intro h
    exact ⟨length_insertKV_mem j.entries c.name c h,
      alookup_insertKV_self j.entries c.name c⟩

/-- Witness for claim_C7: a second Store under the name "expired" replaces
the first entry. -/
theorem claim_C7_witness :
    alookup ((jarStore (jarStore newGlobalCookieJar [expiredCookie]).1
      [replacementCookie]).1.entries) replacementCookie.name = some replacementCookie := by
  have h := (claim_C7 (jarStore newGlobalCookieJar [expiredCookie]).1 []
    [] replacementCookie).2.2.2 (by decide)
  exact h.2

/-! ### Claim C8 -/

/-- Claim C8: in a header list holding at least one entry whose canonical name
matches the Set key, Set leaves exactly the single entry (key, value) — with
the Set call's casing — under that canonical name, and the entries with other
canonical names are exactly those of the original list, in their original
relative order. -/
theorem claim_C8 (h : List HeaderEntry) (k v : String)
    (hm : ∃ e ∈ h, canonicalHeaderKey e.key = canonicalHeaderKey k) :
    (setH h k v).filter
      (fun e => canonicalHeaderKey e.key == canonicalHeaderKey k) =
      [{ key := k, value := v }] ∧
    (setH h k v).filter
      (fun e => canonicalHeaderKey e.key != canonicalHeaderKey k) =
      h.filter (fun e => canonicalHeaderKey e.key != canonicalHeaderKey k) :=
  setLoop_unreplaced_filter k v (canonicalHeaderKey k) h rfl hm

/-- Witness for claim_C8: two Adds of user-agent variants followed by a Set
leave the single Set-cased entry. -/
theorem claim_C8_witness :
    (setH (addH (addH [] "User-Agent" "x") "uSeR-aGeNt" "y") "user-AGENT" "z").filter
      (fun e => canonicalHeaderKey e.key == canonicalHeaderKey "user-AGENT") =
      [{ key := "user-AGENT", value := "z" }] :=
  (claim_C8 (addH (addH [] "User-Agent" "x") "uSeR-aGeNt" "y") "user-AGENT" "z"
    ⟨{ key := "User-Agent", value := "x" }, by decide, by decide⟩).1

/-! ### Claim C9 -/

/-- Claim C9 as frozen is false: when the per-key mutex is free, the helper
goroutine spawned by Lock can acquire it before the select executes, and the
select's pseudo-random choice between two ready cases can pick the acquired
channel; Lock then returns nil and the caller holds the lock despite the
already-cancelled context. -/
theorem claim_C9_counterexample :
    (lockCancelledCtx { waiters := 0, heldByOther := false } true true).err = false ∧
    (lockCancelledCtx { waiters := 0, heldByOther := false } true true).callerHoldsLock
      = true := by
  decide

/-- Claim C9 (amended): Lock with an already-cancelled context always fails
when the per-key mutex is held by another goroutine; in every failing outcome
the caller does not hold the lock, the waiter count returns to its pre-call
value (never negative) and a key left with zero waiters is removed from the
map; the only non-failing outcome is an actual acquisition of the free
mutex. -/
theorem claim_C9_amended (ks : KeyState) (g s : Bool) (hw : 0 ≤ ks.waiters) :
    (ks.heldByOther = true → (lockCancelledCtx ks g s).err = true) ∧
    ((lockCancelledCtx ks g s).err = true →
      ((lockCancelledCtx ks g s).callerHoldsLock = false ∧
       (lockCancelledCtx ks g s).waitersAfter = ks.waiters ∧
       0 ≤ (lockCancelledCtx ks g s).waitersAfter ∧
       ((lockCancelledCtx ks g s).waitersAfter = 0 →
         (lockCancelledCtx ks g s).keyInMapAfter = false))) ∧
    ((lockCancelledCtx ks g s).err = false →
      ((lockCancelledCtx ks g s).callerHoldsLock = true ∧ ks.heldByOther = false)) := by
  unfold lockCancelledCtx
  by_cases hc : ((!ks.heldByOther && g) && s) = true
  · rw [if_pos hc]
    simp only [Bool.and_eq_true, Bool.not_eq_true'] at hc
    dsimp only
    refine ⟨?_, ?_, ?_⟩
    · intro hh
      rw [hh] at hc
      exact absurd hc.1.1 (by simp)
    · intro he
      exact absurd he (by simp)
    · intro _
      exact ⟨rfl, hc.1.1⟩
  · rw [if_neg hc]
    dsimp only
    refine ⟨fun _ => rfl, fun _ => ⟨rfl, by omega, by omega, ?_⟩,
      fun he => absurd he (by simp)⟩
    intro h0
    simp [h0]

/-- Witness for claim_C9_amended: with the mutex held elsewhere the call
fails. -/
theorem claim_C9_witness :
    (lockCancelledCtx { waiters := 1, heldByOther := true } true true).err = true :=
  (claim_C9_amended { waiters := 1, heldByOther := true } true true (by decide)).1 rfl

/-! ### Claim C10 -/

/-- Claim C10: ExtractFromResponse with a nil response, or with a response
whose parsed Set-Cookie list is empty, leaves the session-state map entirely
unchanged — in particular an Authorization Bearer header in a cookie-less
response updates neither the token nor the available flag nor the
last-refresh instant. -/
theorem claim_C10 (states : List (Int × SessionState)) (sid now : Int)
    (resp : Option HTTPResponse)
    (h : resp = none ∨ ∃ r, resp = some r ∧ r.setCookies = []) :
    extractFromResponse states sid now resp = states := by
  rcases h with rfl | ⟨r, rfl, hc⟩
  · rfl
  · simp [extractFromResponse, hc]

/-- Witness for claim_C10: a cookie-less response carrying a Bearer header is
a no-op. -/
theorem claim_C10_witness :
    extractFromResponse [] 5 100 (some { setCookies := [], authHeader := "Bearer abc" })
      = [] :=
  claim_C10 [] 5 100 (some { setCookies := [], authHeader := "Bearer abc" })
    (Or.inr ⟨{ setCookies := [], authHeader := "Bearer abc" }, rfl, rfl⟩)
